import Mathlib

/-!
Verification development for the `rustmsg` SWIFT MT parser core.

Strings are embedded as `List Char`: the source cursor
(`src/utils/string_parser.rs`) stores its input as `Vec<char>` and all
parsing is character-based.  Each decoder receives a fresh cursor over a
block's content (see `read_basic_header` etc. in
`src/swift/mt/swift_mt_parser.rs`), so block decoders are embedded as
functions on the content list, consuming from the front exactly in the
order the source reads.
-/

/-- ASCII decimal digit test, as used by Rust's `u32::from_str`. -/
def isDig (c : Char) : Bool :=
  c = '0' || c = '1' || c = '2' || c = '3' || c = '4' ||
  c = '5' || c = '6' || c = '7' || c = '8' || c = '9'

/-- Numeric value of a decimal digit character (10 on non-digits). -/
def charToDig (c : Char) : Nat :=
  if c = '0' then 0 else if c = '1' then 1 else if c = '2' then 2 else
  if c = '3' then 3 else if c = '4' then 4 else if c = '5' then 5 else
  if c = '6' then 6 else if c = '7' then 7 else if c = '8' then 8 else
  if c = '9' then 9 else 10

/-- The decimal digit character for a value below 10. -/
def digitChar (d : Nat) : Char :=
  if d = 0 then '0' else if d = 1 then '1' else if d = 2 then '2' else
  if d = 3 then '3' else if d = 4 then '4' else if d = 5 then '5' else
  if d = 6 then '6' else if d = 7 then '7' else if d = 8 then '8' else
  if d = 9 then '9' else '*'

/-- Value of a digit string read left to right. -/
def digitsToNat (s : List Char) : Nat :=
  s.foldl (fun a c => a * 10 + charToDig c) 0

/-- `renderNum w n` renders `n` in decimal, zero-padded to exactly `w`
characters (low digits rightmost). -/
def renderNum : Nat → Nat → List Char
  | 0, _ => []
  | w + 1, n => renderNum w (n / 10) ++ [digitChar (n % 10)]

/-- Rust `u32::from_str`: an optional leading `'+'`, then one or more
decimal digits, rejecting overflow past `2^32 - 1`.  (A leading `'-'` is
rejected for the unsigned type by the digit test.) -/
def parseU32 (s : List Char) : Option Nat :=
  let t := if s.head? = some '+' then s.tail else s
  if t = [] then none
  else if t.all isDig then
    let v := digitsToNat t
    if v < 2 ^ 32 then some v else none
  else none

/-!
## Cursor: `StringParser` (src/utils/string_parser.rs)

`nextLineAux rem hasCr` is the loop body of `next_line` (lines 79-118)
run on the remaining characters `rem` with the `has_cr` flag; it returns
the line text together with the number of characters consumed.
-/

def nextLineAux : List Char → Bool → List Char × Nat
  | [], hasCr => (if hasCr then ['\r'] else [], 0)
  | c :: rest, hasCr =>
    if c = '\r' then
      let p := nextLineAux rest true
      ((if hasCr then '\r' :: p.1 else p.1), p.2 + 1)
    else if c = '\n' then
      if hasCr then ([], 1)
      else
        let p := nextLineAux rest false
        ('\n' :: p.1, p.2 + 1)
    else
      let p := nextLineAux rest false
      ((if hasCr then '\r' :: c :: p.1 else c :: p.1), p.2 + 1)

/-- Loop body of `until` (lines 63-77): the prefix before the first
occurrence of `c` together with the number of characters consumed
(the terminator, when found, is consumed but not returned). -/
def untilN (c : Char) : List Char → List Char × Nat
  | [] => ([], 0)
  | x :: rest =>
    if x = c then ([], 1)
    else
      let p := untilN c rest
      (x :: p.1, p.2 + 1)

structure StringParser where
  data : List Char
  position : Nat

def StringParser.new (content : List Char) : StringParser :=
  ⟨content, 0⟩

def StringParser.has_more (p : StringParser) : Bool :=
  p.position < p.data.length

/-- Characters from the current position onward. -/
def StringParser.rem (p : StringParser) : List Char :=
  p.data.drop p.position

def StringParser.n_chars (p : StringParser) (chars : Nat) :
    Option (List Char) × StringParser :=
  if p.data.length < p.position + chars then (none, p)
  else (some (p.rem.take chars), ⟨p.data, p.position + chars⟩)

def StringParser.next (p : StringParser) : Option Char × StringParser :=
  match p.rem with
  | [] => (none, p)
  | c :: _ => (some c, ⟨p.data, p.position + 1⟩)

def StringParser.peek (p : StringParser) : Option Char :=
  p.rem.head?

def StringParser.set_position (p : StringParser) (position : Nat) :
    StringParser :=
  ⟨p.data, position⟩

def StringParser.next_line (p : StringParser) : List Char × StringParser :=
  let q := nextLineAux p.rem false
  (q.1, ⟨p.data, p.position + q.2⟩)

/-- `peek_line` runs `next_line` and restores the saved position. -/
def StringParser.peek_line (p : StringParser) : List Char × StringParser :=
  ((p.next_line).1, p)

def StringParser.until' (p : StringParser) (c : Char) :
    List Char × StringParser :=
  let q := untilN c p.rem
  (q.1, ⟨p.data, p.position + q.2⟩)

/-- `hasCRLF s` holds when `s` contains the two-character sequence CR LF. -/
def hasCRLF : List Char → Bool
  | [] => false
  | [_] => false
  | a :: b :: r => (a = '\r' && b = '\n') || hasCRLF (b :: r)

theorem nextLineAux_le (s : List Char) (b : Bool) :
    (nextLineAux s b).2 ≤ s.length := by
  induction s generalizing b with
  | nil => simp [nextLineAux]
  | cons c rest ih =>
    simp only [nextLineAux, List.length_cons]
    split
    · exact Nat.succ_le_succ (ih true)
    · split
      · split
        · omega
        · exact Nat.succ_le_succ (ih false)
      · exact Nat.succ_le_succ (ih false)

theorem nextLineAux_pos (c : Char) (rest : List Char) (b : Bool) :
    1 ≤ (nextLineAux (c :: rest) b).2 := by
  simp only [nextLineAux]
  split
  · omega
  · split
    · split
      · omega
      · omega
    · omega

theorem untilN_le (c : Char) (s : List Char) :
    (untilN c s).2 ≤ s.length := by
  induction s with
  | nil => simp [untilN]
  | cons x rest ih =>
    simp only [untilN, List.length_cons]
    split
    · omega
    · exact Nat.succ_le_succ ih

theorem hasCRLF_tail {c : Char} {rest : List Char}
    (h : hasCRLF (c :: rest) = false) : hasCRLF rest = false := by
  cases rest with
  | nil => rfl
  | cons d r2 =>
    simp only [hasCRLF, Bool.or_eq_false_iff] at h
    exact h.2

theorem hasCRLF_cr {rest : List Char}
    (h : hasCRLF ('\r' :: rest) = false) : ∀ t, rest ≠ '\n' :: t := by
  intro t ht
  subst ht
  simp [hasCRLF] at h

/-- On CRLF-free input the line is the whole remainder (lone CRs and lone
LFs included) and everything is consumed.  The flag-generalised form:
when `b` is set a pending CR is prepended, provided the input does not
begin with LF. -/
theorem nextLineAux_no_crlf (s : List Char) (b : Bool)
    (h : hasCRLF s = false)
    (hb : b = true → ∀ t, s ≠ '\n' :: t) :
    nextLineAux s b = ((if b then '\r' :: s else s), s.length) := by
  induction s generalizing b with
  | nil => simp [nextLineAux]
  | cons c rest ih =>
    by_cases hc : c = '\r'
    · subst hc
      rw [nextLineAux, if_pos rfl,
        ih true (hasCRLF_tail h) (fun _ => hasCRLF_cr h)]
      cases b <;> simp
    · by_cases hn : c = '\n'
      · subst hn
        cases b with
        | true => exact absurd rfl (fun h' => hb h' rest rfl)
        | false =>
          rw [nextLineAux, if_neg hc, if_pos rfl,
            ih false (hasCRLF_tail h) (by simp)]
          simp
      · rw [nextLineAux, if_neg hc, if_neg hn,
          ih false (hasCRLF_tail h) (by simp)]
        cases b <;> simp

/-- The first CRLF terminates the line: the text before it is returned
and the pair itself is consumed but excluded. -/
theorem nextLineAux_crlf (a : List Char) (s : List Char) (b : Bool)
    (h : hasCRLF a = false)
    (hb : b = true → ∀ t, a ≠ '\n' :: t) :
    nextLineAux (a ++ '\r' :: '\n' :: s) b =
      ((if b then '\r' :: a else a), a.length + 2) := by
  induction a generalizing b with
  | nil =>
    show nextLineAux ('\r' :: '\n' :: s) b = _
    rw [nextLineAux, if_pos rfl, nextLineAux]
    simp
  | cons c rest ih =>
    by_cases hc : c = '\r'
    · subst hc
      rw [List.cons_append, nextLineAux, if_pos rfl,
        ih true (hasCRLF_tail h) (fun _ => hasCRLF_cr h)]
      cases b <;> simp
    · by_cases hn : c = '\n'
      · subst hn
        cases b with
        | true => exact absurd rfl (fun h' => hb h' rest rfl)
        | false =>
          rw [List.cons_append, nextLineAux, if_neg hc, if_pos rfl,
            ih false (hasCRLF_tail h) (by simp)]
          simp
      · rw [List.cons_append, nextLineAux, if_neg hc, if_neg hn,
          ih false (hasCRLF_tail h) (by simp)]
        cases b <;> simp

/-!
## Model (src/swift/mt/model.rs)
-/

/-- Closed enum of basic-header service codes (model.rs lines 9-25). -/
inductive ServiceIdentifier where
  | Message
  | LoginRequest
  | Select
  | Quit
  | Logout
  | RemoveTerminalRequest
  | SystemLogout
  | MessageAck
  | LoginAck
  | SelectAck
  | QuitAck
  | LogoutAck
  | LoginNegativeAck
  | SelectNegativeAck
deriving DecidableEq

/-- `num::FromPrimitive::from_u32` for `ServiceIdentifier`. -/
def ServiceIdentifier.from_u32 (n : Nat) : Option ServiceIdentifier :=
  if n = 1 then some .Message
  else if n = 2 then some .LoginRequest
  else if n = 3 then some .Select
  else if n = 5 then some .Quit
  else if n = 6 then some .Logout
  else if n = 14 then some .RemoveTerminalRequest
  else if n = 16 then some .SystemLogout
  else if n = 21 then some .MessageAck
  else if n = 22 then some .LoginAck
  else if n = 23 then some .SelectAck
  else if n = 25 then some .QuitAck
  else if n = 26 then some .LogoutAck
  else if n = 42 then some .LoginNegativeAck
  else if n = 43 then some .SelectNegativeAck
  else none

/-- The enum discriminant assigned in the source. -/
def ServiceIdentifier.to_u32 : ServiceIdentifier → Nat
  | .Message => 1
  | .LoginRequest => 2
  | .Select => 3
  | .Quit => 5
  | .Logout => 6
  | .RemoveTerminalRequest => 14
  | .SystemLogout => 16
  | .MessageAck => 21
  | .LoginAck => 22
  | .SelectAck => 23
  | .QuitAck => 25
  | .LogoutAck => 26
  | .LoginNegativeAck => 42
  | .SelectNegativeAck => 43

structure BasicHeader where
  application_identifier : List Char
  service_identifier : ServiceIdentifier
  logical_terminal : List Char
  session_number : Nat
  sequence_number : Nat
deriving DecidableEq

/-- `BasicHeader::new` (the default used for an absent block 1). -/
def BasicHeader.new : BasicHeader :=
  ⟨['F'], .Message, "            ".data, 0, 0⟩

/-- `n_chars` on the remaining content of a fresh cursor: fails (consuming
nothing) when fewer than `n` characters remain, otherwise yields the chunk
and the rest. -/
def nCharsL (s : List Char) (n : Nat) : Option (List Char × List Char) :=
  if s.length < n then none else some (s.take n, s.drop n)

/-- `BasicHeader::from_raw` (model.rs lines 46-85), reading from a fresh
cursor over the block-1 content, in the source's read/parse order. -/
def BasicHeader.from_raw (s : List Char) : Option BasicHeader :=
  (nCharsL s 1).bind fun p1 =>
  (nCharsL p1.2 2).bind fun p2 =>
  (nCharsL p2.2 12).bind fun p3 =>
  (nCharsL p3.2 4).bind fun p4 =>
  (parseU32 p4.1).bind fun session_number =>
  (nCharsL p4.2 6).bind fun p5 =>
  (parseU32 p5.1).bind fun sequence_number =>
  (parseU32 p2.1).bind fun service_identifier_num =>
  (ServiceIdentifier.from_u32 service_identifier_num).map fun svc =>
  ⟨p1.1, svc, p3.1, session_number, sequence_number⟩

/-- Modelled from the spec: the repository has no `BasicHeader` encoder
under `src/` (spec section 4.7 "Encoder (headers 1, 3, 5 only)"): "Basic
header: emit the five fields with their fixed widths, zero-padding
numerics to their width". -/
def BasicHeader.to_raw (h : BasicHeader) : List Char :=
  h.application_identifier ++ renderNum 2 h.service_identifier.to_u32 ++
    h.logical_terminal ++ renderNum 4 h.session_number ++
    renderNum 6 h.sequence_number

structure InputData where
  message_type : List Char
  destination : List Char
  priority : List Char
  delivery_monitoring : List Char
  obsolescence_period : List Char
deriving DecidableEq

/-- A parsed `%y%m%d%H%M` timestamp (UTC), the output of chrono's
`NaiveDateTime::parse_from_str` as used by the source. -/
structure UtcDateTime where
  year : Nat
  month : Nat
  day : Nat
  hour : Nat
  minute : Nat
deriving DecidableEq

def isLeapYear (y : Nat) : Bool :=
  (y % 4 = 0 && y % 100 ≠ 0) || y % 400 = 0

def daysInMonth (y m : Nat) : Nat :=
  if m = 2 then (if isLeapYear y then 29 else 28)
  else if m = 4 || m = 6 || m = 9 || m = 11 then 30
  else 31

/-- chrono `%y%m%d%H%M` on a ten-character digit string: two-digit year
(00-68 maps to 20xx, 69-99 to 19xx), then month, day, hour, minute, with
calendar validation. -/
def parse_yymmddhhmm (s : List Char) : Option UtcDateTime :=
  if s.length = 10 && s.all isDig then
    let yy := digitsToNat (s.take 2)
    let mo := digitsToNat ((s.drop 2).take 2)
    let dd := digitsToNat ((s.drop 4).take 2)
    let hh := digitsToNat ((s.drop 6).take 2)
    let mi := digitsToNat ((s.drop 8).take 2)
    let year := if yy ≤ 68 then 2000 + yy else 1900 + yy
    if 1 ≤ mo && mo ≤ 12 && 1 ≤ dd && dd ≤ daysInMonth year mo &&
        hh < 24 && mi < 60 then
      some ⟨year, mo, dd, hh, mi⟩
    else none
  else none

structure OutputData where
  message_type : List Char
  sender_datetime : UtcDateTime
  sender_address : List Char
  session_number : List Char
  sequence_number : List Char
  receiver_datetime : UtcDateTime
  message_priority : List Char
deriving DecidableEq

inductive ApplicationHeader where
  | Input (data : InputData)
  | Output (data : OutputData)
  | Empty
deriving DecidableEq

/-- `ApplicationHeader::from_raw` (model.rs lines 115-182): one direction
character, a three-character message type, then the direction-specific
fields.  The two optional tail reads of the Input variant substitute the
empty string when `n_chars` fails. -/
def ApplicationHeader.from_raw (s : List Char) : Option ApplicationHeader :=
  match s with
  | [] => none
  | direction :: r =>
    (nCharsL r 3).bind fun pmt =>
    if direction = 'I' then
      (nCharsL pmt.2 12).bind fun pdest =>
      (nCharsL pdest.2 1).bind fun pprio =>
      let pdm := match nCharsL pprio.2 1 with
        | some q => q
        | none => ([], pprio.2)
      let pob := match nCharsL pdm.2 3 with
        | some q => q
        | none => ([], pdm.2)
      some (.Input ⟨pmt.1, pdest.1, pprio.1, pdm.1, pob.1⟩)
    else if direction = 'O' then
      (nCharsL pmt.2 4).bind fun ptime =>
      (nCharsL ptime.2 6).bind fun pdate =>
      (parse_yymmddhhmm (pdate.1 ++ ptime.1)).bind fun sender_dt =>
      (nCharsL pdate.2 12).bind fun paddr =>
      (nCharsL paddr.2 4).bind fun psess =>
      (nCharsL psess.2 6).bind fun pseq =>
      (nCharsL pseq.2 6).bind fun prdate =>
      (nCharsL prdate.2 4).bind fun prtime =>
      (parse_yymmddhhmm (prdate.1 ++ prtime.1)).bind fun receiver_dt =>
      (nCharsL prtime.2 1).map fun pprio =>
      .Output ⟨pmt.1, sender_dt, paddr.1, psess.1, pseq.1, receiver_dt,
        pprio.1⟩
    else none

structure Trailer where
  pac : Option (List Char)
  chk : Option (List Char)
  sys : Option (List Char)
  tng : Option (List Char)
  pde : Option (List Char)
  pdm : Option (List Char)
  dlm : Option (List Char)
  mrf : Option (List Char)
  unk_fields : List (List Char × List Char)
deriving DecidableEq

/-- `Trailer::new` (the default used for an absent block 5). -/
def Trailer.new : Trailer :=
  ⟨none, none, none, none, none, none, none, none, []⟩

/-- One `\x7bTAG:VALUE\x7d` entry as emitted by the encoders. -/
def tagEntry (k v : List Char) : List Char :=
  '\x7b' :: (k ++ ':' :: (v ++ ['\x7d']))

def optEntry (k : List Char) : Option (List Char) → List Char
  | none => []
  | some v => tagEntry k v

/-- `Trailer::to_raw` (model.rs lines 362-405): known tags in source
order, then the unknown fields in iteration order, inside a frame that
the source opens with the literal `"\x7b3:"`. -/
def Trailer.to_raw (t : Trailer) : List Char :=
  ('\x7b' :: '3' :: ':' :: []) ++
    optEntry "PAC".data t.pac ++ optEntry "CHK".data t.chk ++
    optEntry "SYS".data t.sys ++ optEntry "TNG".data t.tng ++
    optEntry "PDE".data t.pde ++ optEntry "PDM".data t.pdm ++
    optEntry "DLM".data t.dlm ++ optEntry "MRF".data t.mrf ++
    (t.unk_fields.map fun kv => tagEntry kv.1 kv.2).flatten ++ ['\x7d']

/-!
## Block framer (src/swift/mt/swift_mt_parser.rs)

The framer only ever moves forward through the cursor, except for the
single `set_position(pos + 2)` in `read_message_text`; every function is
embedded on the list of remaining characters, returning the consumed
count or the remaining suffix.
-/

/-- Loop of `read_system_block` (lines 179-222) on the remaining input
with the current nesting level: the captured content and the consumed
count (which includes the terminating `\x7d`), or `none` on a nested `\x7b`
at level above 1 or on end of stream before balance. -/
def sysBlockAux : List Char → Nat → Option (List Char × Nat)
  | [], _ => none
  | c :: rest, nesting =>
    if c = '\x7b' then
      if 1 < nesting then none
      else (sysBlockAux rest (nesting + 1)).map fun p => ('\x7b' :: p.1, p.2 + 1)
    else if c = '\x7d' then
      if nesting = 1 then some ([], 1)
      else (sysBlockAux rest (nesting - 1)).map fun p => ('\x7d' :: p.1, p.2 + 1)
    else (sysBlockAux rest nesting).map fun p => (c :: p.1, p.2 + 1)

theorem sysBlockAux_le (s : List Char) (lvl : Nat) (l : List Char) (n : Nat)
    (h : sysBlockAux s lvl = some (l, n)) : n ≤ s.length := by
  induction s generalizing lvl l n with
  | nil => simp [sysBlockAux] at h
  | cons c rest ih =>
    simp only [sysBlockAux] at h
    split at h
    · split at h
      · exact absurd h (by simp)
      · rcases hr : sysBlockAux rest (lvl + 1) with _ | ⟨ql, qn⟩ <;> rw [hr] at h <;> simp at h
        have := ih _ _ _ hr
        simp only [List.length_cons]
        omega
    · split at h
      · split at h
        · simp at h
          simp only [List.length_cons]
          omega
        · rcases hr : sysBlockAux rest (lvl - 1) with _ | ⟨ql, qn⟩ <;> rw [hr] at h <;> simp at h
          have := ih _ _ _ hr
          simp only [List.length_cons]
          omega
      · rcases hr : sysBlockAux rest lvl with _ | ⟨ql, qn⟩ <;> rw [hr] at h <;> simp at h
        have := ih _ _ _ hr
        simp only [List.length_cons]
        omega

/-- Loop of `read_message_text` (lines 155-174): accumulate each line
followed by CR LF until a line starting with the sentinel `-\x7d`; then the
stream is re-positioned two characters past the saved pre-line position.
Returns the content and the remaining suffix, or `none` at end of
stream. -/
def msgTextLoop : List Char → List Char → Option (List Char × List Char)
  | [], _ => none
  | c :: rest, acc =>
    let p := nextLineAux (c :: rest) false
    if ['-', '\x7d'].isPrefixOf p.1 then some (acc, (c :: rest).drop 2)
    else msgTextLoop ((c :: rest).drop p.2) (acc ++ p.1 ++ ['\r', '\n'])
termination_by r _ => r.length
decreasing_by
  simp only [List.length_drop]
  have h1 := nextLineAux_pos c rest false
  simp only [List.length_cons]
  omega

/-- `read_message_text` (lines 147-177): discard one line, then run the
sentinel loop. -/
def read_message_text (r : List Char) : Option (List Char × List Char) :=
  msgTextLoop (r.drop (nextLineAux r false).2) []

theorem msgTextLoop_rest_le_aux (k : Nat) :
    ∀ r acc content rest, r.length ≤ k →
      msgTextLoop r acc = some (content, rest) → rest.length ≤ r.length := by
  induction k with
  | zero =>
    intro r acc content rest hlen h
    cases r with
    | nil => simp [msgTextLoop] at h
    | cons c rest2 => simp at hlen
  | succ k ih =>
    intro r acc content rest hlen h
    cases r with
    | nil => simp [msgTextLoop] at h
    | cons c r2 =>
      rw [msgTextLoop] at h
      split at h
      · simp only [Option.some.injEq, Prod.mk.injEq] at h
        rw [← h.2]
        simp only [List.length_drop, List.length_cons]
        omega
      · have hp := nextLineAux_pos c r2 false
        have hdrop : ((c :: r2).drop (nextLineAux (c :: r2) false).2).length ≤ k := by
          simp only [List.length_drop, List.length_cons] at hlen ⊢
          omega
        have := ih _ _ _ _ hdrop h
        calc rest.length ≤ ((c :: r2).drop (nextLineAux (c :: r2) false).2).length := this
          _ ≤ (c :: r2).length := by simp [List.length_drop]

theorem msgTextLoop_rest_le (r acc content rest : List Char)
    (h : msgTextLoop r acc = some (content, rest)) :
    rest.length ≤ r.length :=
  msgTextLoop_rest_le_aux r.length r acc content rest (Nat.le_refl _) h

theorem read_message_text_rest_le (r content rest : List Char)
    (h : read_message_text r = some (content, rest)) :
    rest.length ≤ r.length := by
  have := msgTextLoop_rest_le _ _ _ _ h
  calc rest.length ≤ (r.drop (nextLineAux r false).2).length := this
    _ ≤ r.length := by simp [List.length_drop]

/-- The valid top-level block labels (swift_mt_parser.rs line 66). -/
def VALID_BLOCKS : List Char := ['1', '2', '3', '4', '5', 'S']

/-- `HashMap::insert`: later insertions for a key shadow earlier ones. -/
def upd (m : Char → Option (List Char)) (k : Char) (v : List Char) :
    Char → Option (List Char) :=
  fun c => if c = k then some v else m c

/-- Loop of `read_blocks` (lines 96-145): read `\x7b`, a label character and
`:`, dispatch on the label (a label outside the valid set, or `1` or `2`,
is read flat via `until('\x7d')`; `3`, `5`, `S` via `read_system_block`; `4`
via `read_message_text`), insert the content under the label, repeat to
end of stream.  The final arm mirrors the source's missing `else`: a
label that matches no branch inserts nothing. -/
def readBlocksLoop : List Char → (Char → Option (List Char)) →
    Option (Char → Option (List Char))
  | [], m => some m
  | c :: rest, m =>
    if c ≠ '\x7b' then none
    else match rest with
      | [] => none
      | block_type :: rest2 =>
        match rest2 with
        | [] => none
        | sep :: rest3 =>
          if sep ≠ ':' then none
          else if !VALID_BLOCKS.contains block_type || block_type = '1' ||
              block_type = '2' then
            let p := untilN '\x7d' rest3
            readBlocksLoop (rest3.drop p.2) (upd m block_type p.1)
          else if block_type = '3' || block_type = '5' || block_type = 'S' then
            match sysBlockAux rest3 1 with
            | none => none
            | some q => readBlocksLoop (rest3.drop q.2) (upd m block_type q.1)
          else if block_type = '4' then
            match h4 : read_message_text rest3 with
            | none => none
            | some q => readBlocksLoop q.2 (upd m block_type q.1)
          else readBlocksLoop rest3 m
termination_by r _ => r.length
decreasing_by
  · simp only [List.length_drop, List.length_cons]
    omega
  · simp only [List.length_drop, List.length_cons]
    omega
  · have := read_message_text_rest_le _ _ _ h4
    simp only [List.length_cons]
    omega
  · simp only [List.length_cons]
    omega

/-- `read_blocks` from a fresh cursor over the whole message
(`parse_blocks`), starting from the empty mapping. -/
def read_blocks (msg : List Char) : Option (Char → Option (List Char)) :=
  readBlocksLoop msg (fun _ => none)

/-!
## Declarative block grammars

`nbAux s lvl` checks that `s` is a well-formed nested-block body
continuation at brace depth `lvl` (0 = outside a sub-block, 1 = inside):
at most one level of `\x7b...\x7d` sub-blocks, all braces balanced.
`nestedBody s` is the top-level form.
-/

def nbAux : List Char → Nat → Bool
  | [], lvl => lvl == 0
  | c :: r, lvl =>
    if c = '\x7b' then (if lvl = 0 then nbAux r 1 else false)
    else if c = '\x7d' then (if lvl = 1 then nbAux r 0 else false)
    else nbAux r lvl

def nestedBody (s : List Char) : Bool := nbAux s 0

/-- Lines of a block-4 body, each rendered with a trailing CR LF. -/
def linesJoin : List (List Char) → List Char
  | [] => []
  | l :: ls => l ++ '\r' :: '\n' :: linesJoin ls

theorem drop_len_plus_one (a : List Char) (c : Char) (rest : List Char) :
    (a ++ c :: rest).drop (a.length + 1) = rest := by
  rw [show a ++ c :: rest = (a ++ [c]) ++ rest by simp]
  rw [show a.length + 1 = (a ++ [c]).length by simp]
  exact List.drop_left _ _

theorem untilN_append (body rest : List Char) (h : '\x7d' ∉ body) :
    untilN '\x7d' (body ++ '\x7d' :: rest) = (body, body.length + 1) := by
  induction body with
  | nil => simp [untilN]
  | cons x b ih =>
    have hx : x ≠ '\x7d' := fun hx => h (hx ▸ List.mem_cons_self x b)
    have hb : '\x7d' ∉ b := fun hb => h (List.mem_cons_of_mem x hb)
    rw [List.cons_append, untilN, if_neg hx, ih hb]
    simp

/-- Scanning a well-formed nested body at the matching depth prepends it
to whatever the scan of the continuation produces. -/
theorem sysBlockAux_append (b : List Char) (lvl : Nat) (X : List Char)
    (h : nbAux b lvl = true) :
    sysBlockAux (b ++ X) (lvl + 1) =
      (sysBlockAux X 1).map fun p => (b ++ p.1, b.length + p.2) := by
  induction b generalizing lvl with
  | nil =>
    simp only [nbAux, beq_iff_eq] at h
    subst h
    simp only [List.nil_append, List.length_nil]
    cases sysBlockAux X 1 with
    | none => simp
    | some p => simp
  | cons c r ih =>
    by_cases hc : c = '\x7b'
    · subst hc
      rw [nbAux, if_pos rfl] at h
      split at h
      · rename_i h0
        subst h0
        have hih := ih 1 h
        norm_num at hih
        rw [List.cons_append, sysBlockAux]
        norm_num [hih]
        cases sysBlockAux X 1 with
        | none => simp
        | some p =>
          simp
          omega
      · exact absurd h (by simp)
    · by_cases hd : c = '\x7d'
      · subst hd
        rw [nbAux, if_neg (by decide), if_pos rfl] at h
        split at h
        · rename_i h0
          subst h0
          have hih := ih 0 h
          norm_num at hih
          rw [List.cons_append, sysBlockAux]
          norm_num [hih]
          cases sysBlockAux X 1 with
          | none => simp
          | some p =>
            simp
            omega
        · exact absurd h (by simp)
      · rw [nbAux, if_neg hc, if_neg hd] at h
        rw [List.cons_append, sysBlockAux]
        rw [if_neg hc, if_neg hd, ih lvl h]
        cases sysBlockAux X 1 with
        | none => simp
        | some p =>
          simp
          omega

/-- Scanning brace-free text inside a sub-block (depth 2). -/
theorem sysBlockAux_plain (t : List Char) (Y : List Char)
    (h : ∀ c ∈ t, c ≠ '\x7b' ∧ c ≠ '\x7d') :
    sysBlockAux (t ++ Y) 2 = (sysBlockAux Y 2).map fun p =>
      (t ++ p.1, t.length + p.2) := by
  induction t with
  | nil =>
    simp only [List.nil_append, List.length_nil]
    cases sysBlockAux Y 2 with
    | none => simp
    | some p => simp
  | cons c r ih =>
    obtain ⟨hc, hd⟩ := h c (List.mem_cons_self c r)
    have hr : ∀ x ∈ r, x ≠ '\x7b' ∧ x ≠ '\x7d' :=
      fun x hx => h x (List.mem_cons_of_mem c hx)
    rw [List.cons_append, sysBlockAux, if_neg hc, if_neg hd, ih hr]
    cases sysBlockAux Y 2 with
    | none => simp
    | some p =>
      simp
      omega

theorem msgTextLoop_ne_nil (r : List Char) (acc : List Char) (hr : r ≠ []) :
    msgTextLoop r acc =
      (if ['-', '\x7d'].isPrefixOf (nextLineAux r false).1
       then some (acc, r.drop 2)
       else msgTextLoop (r.drop (nextLineAux r false).2)
         (acc ++ (nextLineAux r false).1 ++ ['\r', '\n'])) := by
  cases r with
  | nil => exact absurd rfl hr
  | cons c rest => rw [msgTextLoop]

theorem nextLineAux_sentinel (rest : List Char) :
    ∃ z, (nextLineAux ('-' :: '\x7d' :: rest) false).1 = '-' :: '\x7d' :: z := by
  rw [nextLineAux, if_neg (by decide), if_neg (by decide)]
  rw [nextLineAux, if_neg (by decide), if_neg (by decide)]
  exact ⟨(nextLineAux rest false).1, rfl⟩

/-- Success of the block-4 line loop: CRLF-terminated lines that are
CRLF-free and do not begin with the sentinel are accumulated (each with
CR LF re-appended); a line beginning with `-\x7d` stops the loop, leaving
exactly what follows the two sentinel characters. -/
theorem msgTextLoop_spec (lines : List (List Char)) (acc rest : List Char)
    (h : ∀ ln ∈ lines, hasCRLF ln = false ∧
      ['-', '\x7d'].isPrefixOf ln = false) :
    msgTextLoop (linesJoin lines ++ '-' :: '\x7d' :: rest) acc =
      some (acc ++ linesJoin lines, rest) := by
  induction lines generalizing acc with
  | nil =>
    simp only [linesJoin, List.nil_append]
    rw [msgTextLoop_ne_nil _ _ (by simp)]
    obtain ⟨z, hz⟩ := nextLineAux_sentinel rest
    rw [hz]
    simp [List.isPrefixOf]
  | cons ln ls ih =>
    obtain ⟨hcr, hsent⟩ := h ln (List.mem_cons_self ln ls)
    have hls : ∀ l ∈ ls, hasCRLF l = false ∧
        ['-', '\x7d'].isPrefixOf l = false :=
      fun l hl => h l (List.mem_cons_of_mem ln hl)
    have hline := nextLineAux_crlf ln
      (linesJoin ls ++ '-' :: '\x7d' :: rest) false hcr (by simp)
    simp only [linesJoin, List.append_assoc, List.cons_append]
    rw [msgTextLoop_ne_nil _ _ (by simp [List.append_eq_nil])]
    rw [show ln ++ '\r' :: '\n' :: (linesJoin ls ++ '-' :: '\x7d' :: rest) =
      ln ++ '\r' :: '\n' :: (linesJoin ls ++ '-' :: '\x7d' :: rest) from rfl]
    rw [hline]
    simp only [hsent, Bool.false_eq_true, if_false]
    have hdrop : (ln ++ '\r' :: '\n' ::
        (linesJoin ls ++ '-' :: '\x7d' :: rest)).drop (ln.length + 2) =
        linesJoin ls ++ '-' :: '\x7d' :: rest := by
      rw [show ln ++ '\r' :: '\n' :: (linesJoin ls ++ '-' :: '\x7d' :: rest) =
        (ln ++ ['\r', '\n']) ++ (linesJoin ls ++ '-' :: '\x7d' :: rest) by
          simp]
      rw [show ln.length + 2 = (ln ++ ['\r', '\n']).length by simp]
      exact List.drop_left _ _
    rw [hdrop, ih _ hls]
    simp [linesJoin]

/-- End of stream before any sentinel line: the loop consumes every
CRLF-terminated line and then fails. -/
theorem msgTextLoop_eos (lines : List (List Char)) (acc : List Char)
    (h : ∀ ln ∈ lines, hasCRLF ln = false ∧
      ['-', '\x7d'].isPrefixOf ln = false) :
    msgTextLoop (linesJoin lines) acc = none := by
  induction lines generalizing acc with
  | nil => simp [linesJoin, msgTextLoop]
  | cons ln ls ih =>
    obtain ⟨hcr, hsent⟩ := h ln (List.mem_cons_self ln ls)
    have hls : ∀ l ∈ ls, hasCRLF l = false ∧
        ['-', '\x7d'].isPrefixOf l = false :=
      fun l hl => h l (List.mem_cons_of_mem ln hl)
    have hline := nextLineAux_crlf ln (linesJoin ls) false hcr (by simp)
    simp only [linesJoin]
    rw [msgTextLoop_ne_nil _ _ (by simp [List.append_eq_nil])]
    rw [hline]
    simp only [hsent, Bool.false_eq_true, if_false]
    have hdrop : (ln ++ '\r' :: '\n' :: linesJoin ls).drop (ln.length + 2) =
        linesJoin ls := by
      rw [show ln ++ '\r' :: '\n' :: linesJoin ls =
        (ln ++ ['\r', '\n']) ++ linesJoin ls by simp]
      rw [show ln.length + 2 = (ln ++ ['\r', '\n']).length by simp]
      exact List.drop_left _ _
    rw [hdrop]
    exact ih _ hls

/-- `read_message_text` on a block-4 body: the first line (here `f`,
CRLF-terminated) is discarded, the remaining lines are joined with CR LF,
and the stream resumes immediately after the sentinel `-\x7d`. -/
theorem read_message_text_spec (f : List Char) (lines : List (List Char))
    (rest : List Char) (hf : hasCRLF f = false)
    (h : ∀ ln ∈ lines, hasCRLF ln = false ∧
      ['-', '\x7d'].isPrefixOf ln = false) :
    read_message_text
        (f ++ '\r' :: '\n' :: (linesJoin lines ++ '-' :: '\x7d' :: rest)) =
      some (linesJoin lines, rest) := by
  unfold read_message_text
  rw [nextLineAux_crlf f _ false hf (by simp)]
  have hdrop : (f ++ '\r' :: '\n' ::
      (linesJoin lines ++ '-' :: '\x7d' :: rest)).drop (f.length + 2) =
      linesJoin lines ++ '-' :: '\x7d' :: rest := by
    rw [show f ++ '\r' :: '\n' :: (linesJoin lines ++ '-' :: '\x7d' :: rest) =
      (f ++ ['\r', '\n']) ++ (linesJoin lines ++ '-' :: '\x7d' :: rest) by
        simp]
    rw [show f.length + 2 = (f ++ ['\r', '\n']).length by simp]
    exact List.drop_left _ _
  rw [hdrop, msgTextLoop_spec lines [] rest h]
  simp

/-- `read_message_text` errors at end of stream before a sentinel line. -/
theorem read_message_text_eos (f : List Char) (lines : List (List Char))
    (hf : hasCRLF f = false)
    (h : ∀ ln ∈ lines, hasCRLF ln = false ∧
      ['-', '\x7d'].isPrefixOf ln = false) :
    read_message_text (f ++ '\r' :: '\n' :: linesJoin lines) = none := by
  unfold read_message_text
  rw [nextLineAux_crlf f _ false hf (by simp)]
  have hdrop : (f ++ '\r' :: '\n' :: linesJoin lines).drop (f.length + 2) =
      linesJoin lines := by
    rw [show f ++ '\r' :: '\n' :: linesJoin lines =
      (f ++ ['\r', '\n']) ++ linesJoin lines by simp]
    rw [show f.length + 2 = (f ++ ['\r', '\n']).length by simp]
    exact List.drop_left _ _
  rw [hdrop]
  exact msgTextLoop_eos lines [] h

/-- `read_message_text` errors when the whole remainder is a single
unterminated line (the discarded line consumes everything). -/
theorem read_message_text_eos_short (f : List Char)
    (hf : hasCRLF f = false) : read_message_text f = none := by
  unfold read_message_text
  rw [nextLineAux_no_crlf f false hf (by simp)]
  simp [msgTextLoop]

/-- Flat-read step of the block loop: a label dispatched to
`until('\x7d')` (label `1`, `2`, or any label outside the valid set)
consumes the body through the closing `\x7d` and records it. -/
theorem readBlocksLoop_flat_step (l : Char) (body rest : List Char)
    (m : Char → Option (List Char))
    (hl : (!VALID_BLOCKS.contains l || l = '1' || l = '2') = true)
    (hb : '\x7d' ∉ body) :
    readBlocksLoop ('\x7b' :: l :: ':' :: (body ++ '\x7d' :: rest)) m =
      readBlocksLoop rest (upd m l body) := by
  rw [readBlocksLoop]
  simp only [reduceIte]
  rw [if_pos hl]
  rw [untilN_append body rest hb]
  simp [drop_len_plus_one]

/-- System-block step of the block loop (labels `3`, `5`, `S`): a
well-formed nested body is captured up to (excluding) the outer `\x7d`. -/
theorem readBlocksLoop_sys_step (l : Char) (body rest : List Char)
    (m : Char → Option (List Char))
    (hl : l = '3' ∨ l = '5' ∨ l = 'S')
    (hb : nestedBody body = true) :
    readBlocksLoop ('\x7b' :: l :: ':' :: (body ++ '\x7d' :: rest)) m =
      readBlocksLoop rest (upd m l body) := by
  have hclose : sysBlockAux ('\x7d' :: rest) 1 = some ([], 1) := by
    rw [sysBlockAux]
    simp
  have key : sysBlockAux (body ++ '\x7d' :: rest) 1 =
      some (body, body.length + 1) := by
    have h0 := sysBlockAux_append body 0 ('\x7d' :: rest) hb
    norm_num at h0
    rw [h0, hclose]
    simp
  have hdrop := drop_len_plus_one body '\x7d' rest
  rcases hl with h | h | h <;> subst h <;>
    rw [readBlocksLoop, key] <;> simp [VALID_BLOCKS, hdrop]

/-- Block-4 step of the block loop. -/
theorem readBlocksLoop_text_step (f : List Char) (lines : List (List Char))
    (rest : List Char) (m : Char → Option (List Char))
    (hf : hasCRLF f = false)
    (h : ∀ ln ∈ lines, hasCRLF ln = false ∧
      ['-', '\x7d'].isPrefixOf ln = false) :
    readBlocksLoop ('\x7b' :: '4' :: ':' ::
        (f ++ '\r' :: '\n' :: (linesJoin lines ++ '-' :: '\x7d' :: rest))) m =
      readBlocksLoop rest (upd m '4' (linesJoin lines)) := by
  have key := read_message_text_spec f lines rest hf h
  rw [readBlocksLoop, key]
  simp [VALID_BLOCKS]

/-!
## Wire-level block sequences

A `Wire` value is one well-formed top-level block as it appears on the
wire, in one of the three body sub-grammars of `read_blocks`.
-/

inductive Wire where
  | flat (l : Char) (body : List Char)
  | sys (l : Char) (body : List Char)
  | txt (first : List Char) (lines : List (List Char))

/-- Which labels may carry which body grammar, with the body constraints
under which the corresponding reader consumes exactly the rendered
block. -/
def Wire.valid : Wire → Prop
  | .flat l b =>
      (!VALID_BLOCKS.contains l || l = '1' || l = '2') = true ∧ '\x7d' ∉ b
  | .sys l b => (l = '3' ∨ l = '5' ∨ l = 'S') ∧ nestedBody b = true
  | .txt f lines => hasCRLF f = false ∧
      ∀ ln ∈ lines, hasCRLF ln = false ∧
        ['-', '\x7d'].isPrefixOf ln = false

instance (w : Wire) : Decidable w.valid := by
  cases w <;> simp only [Wire.valid] <;> infer_instance

def Wire.label : Wire → Char
  | .flat l _ => l
  | .sys l _ => l
  | .txt _ _ => '4'

/-- The content that `read_blocks` records for the block. -/
def Wire.content : Wire → List Char
  | .flat _ b => b
  | .sys _ b => b
  | .txt _ lines => linesJoin lines

/-- The block's on-wire form. -/
def Wire.render : Wire → List Char
  | .flat l b => '\x7b' :: l :: ':' :: (b ++ ['\x7d'])
  | .sys l b => '\x7b' :: l :: ':' :: (b ++ ['\x7d'])
  | .txt f lines =>
      '\x7b' :: '4' :: ':' ::
        (f ++ '\r' :: '\n' :: (linesJoin lines ++ ['-', '\x7d']))

def renderAll : List Wire → List Char
  | [] => []
  | w :: ws => w.render ++ renderAll ws

/-- The content of the last block with a given label, scanning a block
sequence with later blocks taking priority. -/
def lastContent? : List Wire → Char → Option (List Char)
  | [], _ => none
  | w :: ws, c =>
    match lastContent? ws c with
    | some v => some v
    | none => if w.label = c then some w.content else none

theorem readBlocksLoop_step (w : Wire) (hw : w.valid) (rest : List Char)
    (m : Char → Option (List Char)) :
    readBlocksLoop (w.render ++ rest) m =
      readBlocksLoop rest (upd m w.label w.content) := by
  cases w with
  | flat l b =>
    obtain ⟨hl, hb⟩ := hw
    have : Wire.render (.flat l b) ++ rest =
        '\x7b' :: l :: ':' :: (b ++ '\x7d' :: rest) := by
      simp [Wire.render]
    rw [this]
    exact readBlocksLoop_flat_step l b rest m hl hb
  | sys l b =>
    obtain ⟨hl, hb⟩ := hw
    have : Wire.render (.sys l b) ++ rest =
        '\x7b' :: l :: ':' :: (b ++ '\x7d' :: rest) := by
      simp [Wire.render]
    rw [this]
    exact readBlocksLoop_sys_step l b rest m hl hb
  | txt f lines =>
    obtain ⟨hf, hl⟩ := hw
    have : Wire.render (.txt f lines) ++ rest =
        '\x7b' :: '4' :: ':' ::
          (f ++ '\r' :: '\n' :: (linesJoin lines ++ '-' :: '\x7d' :: rest)) := by
      simp [Wire.render]
    rw [this]
    exact readBlocksLoop_text_step f lines rest m hf hl

theorem readBlocksLoop_renderAll (ws : List Wire)
    (h : ∀ w ∈ ws, w.valid) (m : Char → Option (List Char)) :
    readBlocksLoop (renderAll ws) m =
      some (ws.foldl (fun m w => upd m w.label w.content) m) := by
  induction ws generalizing m with
  | nil => simp [renderAll, readBlocksLoop]
  | cons w ws ih =>
    rw [renderAll, readBlocksLoop_step w (h w (List.mem_cons_self w ws))]
    exact ih (fun x hx => h x (List.mem_cons_of_mem w hx)) _

theorem foldl_upd_lookup (ws : List Wire) (m : Char → Option (List Char))
    (c : Char) :
    (ws.foldl (fun m w => upd m w.label w.content) m) c =
      match lastContent? ws c with
      | some v => some v
      | none => m c := by
  induction ws generalizing m with
  | nil => simp [lastContent?]
  | cons w ws ih =>
    rw [List.foldl_cons, ih, lastContent?]
    cases lastContent? ws c with
    | some v => simp
    | none =>
      simp only [upd]
      by_cases hc : w.label = c
      · subst hc
        simp
      · rw [if_neg hc, if_neg (fun h => hc h.symm)]

/-!
## Decimal-digit round-trip lemmas
-/

theorem dig_round (c : Char) (h : isDig c = true) :
    digitChar (charToDig c) = c := by
  simp only [isDig, Bool.or_eq_true, decide_eq_true_eq] at h
  rcases h with ((((((((h | h) | h) | h) | h) | h) | h) | h) | h) | h <;>
    subst h <;> rfl

theorem charToDig_lt (c : Char) (h : isDig c = true) : charToDig c < 10 := by
  simp only [isDig, Bool.or_eq_true, decide_eq_true_eq] at h
  rcases h with ((((((((h | h) | h) | h) | h) | h) | h) | h) | h) | h <;>
    subst h <;> decide

theorem digitsToNat_snoc (ds : List Char) (c : Char) :
    digitsToNat (ds ++ [c]) = digitsToNat ds * 10 + charToDig c := by
  simp [digitsToNat, List.foldl_append]

theorem digitsToNat_bound_aux (ds : List Char) :
    ∀ acc, (∀ c ∈ ds, isDig c = true) →
      ds.foldl (fun a c => a * 10 + charToDig c) acc <
        (acc + 1) * 10 ^ ds.length := by
  induction ds with
  | nil => intro acc _; simp
  | cons c r ih =>
    intro acc h
    have hc := charToDig_lt c (h c (List.mem_cons_self c r))
    have hr := ih (acc * 10 + charToDig c)
      (fun x hx => h x (List.mem_cons_of_mem c hx))
    calc (c :: r).foldl (fun a c => a * 10 + charToDig c) acc
        = r.foldl (fun a c => a * 10 + charToDig c)
          (acc * 10 + charToDig c) := by simp
      _ < (acc * 10 + charToDig c + 1) * 10 ^ r.length := hr
      _ ≤ (acc + 1) * 10 ^ (c :: r).length := by
          simp only [List.length_cons, pow_succ]
          have : acc * 10 + charToDig c + 1 ≤ (acc + 1) * 10 := by omega
          calc (acc * 10 + charToDig c + 1) * 10 ^ r.length
              ≤ (acc + 1) * 10 * 10 ^ r.length :=
                Nat.mul_le_mul_right _ this
            _ = (acc + 1) * (10 ^ r.length * 10) := by ring

theorem digitsToNat_bound (ds : List Char)
    (h : ∀ c ∈ ds, isDig c = true) :
    digitsToNat ds < 10 ^ ds.length := by
  have := digitsToNat_bound_aux ds 0 h
  simpa [digitsToNat] using this

theorem renderNum_digits (ds : List Char)
    (h : ∀ c ∈ ds, isDig c = true) :
    renderNum ds.length (digitsToNat ds) = ds := by
  induction ds using List.reverseRecOn with
  | nil => rfl
  | append_singleton ds c ih =>
    have hc : isDig c = true := by
      exact (List.forall_mem_append.mp h).2 c (List.mem_singleton_self c)
    have hds : ∀ x ∈ ds, isDig x = true :=
      fun x hx => (List.forall_mem_append.mp h).1 x hx
    have hlt := charToDig_lt c hc
    rw [List.length_append, List.length_singleton, digitsToNat_snoc]
    rw [renderNum]
    have hdiv : (digitsToNat ds * 10 + charToDig c) / 10 = digitsToNat ds := by
      omega
    have hmod : (digitsToNat ds * 10 + charToDig c) % 10 = charToDig c := by
      omega
    rw [hdiv, hmod, ih hds, dig_round c hc]

theorem parseU32_digits (ds : List Char) (h1 : ds ≠ [])
    (h2 : ∀ c ∈ ds, isDig c = true) (h3 : ds.length ≤ 6) :
    parseU32 ds = some (digitsToNat ds) := by
  cases ds with
  | nil => exact absurd rfl h1
  | cons c r =>
    have hc : isDig c = true := h2 c (List.mem_cons_self c r)
    have hcp : c ≠ '+' := by
      intro hh
      subst hh
      exact absurd hc (by decide)
    have hb : digitsToNat (c :: r) < 2 ^ 32 := by
      have hb := digitsToNat_bound (c :: r) h2
      calc digitsToNat (c :: r) < 10 ^ (c :: r).length := hb
        _ ≤ 10 ^ 6 := Nat.pow_le_pow_right (by omega) h3
        _ < 2 ^ 32 := by norm_num
    unfold parseU32
    simp only [List.head?_cons, Option.some.injEq]
    rw [if_neg hcp, if_neg (by simp),
      if_pos (by simpa [List.all_eq_true] using h2), if_pos hb]

theorem from_u32_to_u32 (n : Nat) (e : ServiceIdentifier)
    (h : ServiceIdentifier.from_u32 n = some e) : e.to_u32 = n := by
  rw [ServiceIdentifier.from_u32] at h
  by_cases hn0 : n = 1
  · rw [if_pos hn0] at h
    injection h with h9
    subst h9
    simp only [ServiceIdentifier.to_u32]
    omega
  rw [if_neg hn0] at h
  by_cases hn1 : n = 2
  · rw [if_pos hn1] at h
    injection h with h9
    subst h9
    simp only [ServiceIdentifier.to_u32]
    omega
  rw [if_neg hn1] at h
  by_cases hn2 : n = 3
  · rw [if_pos hn2] at h
    injection h with h9
    subst h9
    simp only [ServiceIdentifier.to_u32]
    omega
  rw [if_neg hn2] at h
  by_cases hn3 : n = 5
  · rw [if_pos hn3] at h
    injection h with h9
    subst h9
    simp only [ServiceIdentifier.to_u32]
    omega
  rw [if_neg hn3] at h
  by_cases hn4 : n = 6
  · rw [if_pos hn4] at h
    injection h with h9
    subst h9
    simp only [ServiceIdentifier.to_u32]
    omega
  rw [if_neg hn4] at h
  by_cases hn5 : n = 14
  · rw [if_pos hn5] at h
    injection h with h9
    subst h9
    simp only [ServiceIdentifier.to_u32]
    omega
  rw [if_neg hn5] at h
  by_cases hn6 : n = 16
  · rw [if_pos hn6] at h
    injection h with h9
    subst h9
    simp only [ServiceIdentifier.to_u32]
    omega
  rw [if_neg hn6] at h
  by_cases hn7 : n = 21
  · rw [if_pos hn7] at h
    injection h with h9
    subst h9
    simp only [ServiceIdentifier.to_u32]
    omega
  rw [if_neg hn7] at h
  by_cases hn8 : n = 22
  · rw [if_pos hn8] at h
    injection h with h9
    subst h9
    simp only [ServiceIdentifier.to_u32]
    omega
  rw [if_neg hn8] at h
  by_cases hn9 : n = 23
  · rw [if_pos hn9] at h
    injection h with h9
    subst h9
    simp only [ServiceIdentifier.to_u32]
    omega
  rw [if_neg hn9] at h
  by_cases hn10 : n = 25
  · rw [if_pos hn10] at h
    injection h with h9
    subst h9
    simp only [ServiceIdentifier.to_u32]
    omega
  rw [if_neg hn10] at h
  by_cases hn11 : n = 26
  · rw [if_pos hn11] at h
    injection h with h9
    subst h9
    simp only [ServiceIdentifier.to_u32]
    omega
  rw [if_neg hn11] at h
  by_cases hn12 : n = 42
  · rw [if_pos hn12] at h
    injection h with h9
    subst h9
    simp only [ServiceIdentifier.to_u32]
    omega
  rw [if_neg hn12] at h
  by_cases hn13 : n = 43
  · rw [if_pos hn13] at h
    injection h with h9
    subst h9
    simp only [ServiceIdentifier.to_u32]
    omega
  rw [if_neg hn13] at h
  exact absurd h (by simp)

theorem nCharsL_of_le (s : List Char) (n : Nat) (h : n ≤ s.length) :
    nCharsL s n = some (s.take n, s.drop n) := by
  unfold nCharsL
  rw [if_neg (by omega)]

theorem nCharsL_of_lt (s : List Char) (n : Nat) (h : s.length < n) :
    nCharsL s n = none := by
  unfold nCharsL
  rw [if_pos h]

/-- C3 counterexample: the claim says a lone LF terminates a line, so
`next_line` on `"a\nb"` would return `"a"`; the source keeps the lone LF
in the line text and consumes the whole remainder. -/
theorem C3_cex :
    (StringParser.next_line (StringParser.new ('a' :: '\n' :: 'b' :: []))).1 =
      'a' :: '\n' :: 'b' :: [] ∧
    (StringParser.next_line (StringParser.new ('a' :: '\n' :: 'b' :: []))).1 ≠
      ['a'] := by
  decide

/-- C3 (amended): `next_line` consumes exactly one line whose terminator
is CR LF only: a lone CR is not a terminator and is retained, a lone LF
is not a terminator and is retained, the CR LF pair is consumed and
excluded, a final unterminated line returns the remainder (trailing lone
CR preserved), and at end of stream the empty string is returned without
error. -/
theorem C3_next_line_characterization :
    (∀ s : List Char, hasCRLF s = false →
      StringParser.next_line (StringParser.new s) = (s, ⟨s, s.length⟩)) ∧
    (∀ a b : List Char, hasCRLF a = false →
      StringParser.next_line (StringParser.new (a ++ '\r' :: '\n' :: b)) =
        (a, ⟨a ++ '\r' :: '\n' :: b, a.length + 2⟩)) := by
  constructor
  · intro s hs
    unfold StringParser.next_line StringParser.new StringParser.rem
    simp [nextLineAux_no_crlf s false hs (by simp)]
  · intro a b ha
    unfold StringParser.next_line StringParser.new StringParser.rem
    simp [nextLineAux_crlf a b false ha (by simp)]

/-- C3 witness: the characterization applied to `"x\ry"` (lone CR kept,
unterminated tail), to the empty stream, and to `"ab\r\ncd"`. -/
theorem C3_witness :
    hasCRLF ('x' :: '\r' :: 'y' :: []) = false ∧
    StringParser.next_line (StringParser.new ('x' :: '\r' :: 'y' :: [])) =
      ('x' :: '\r' :: 'y' :: [], ⟨'x' :: '\r' :: 'y' :: [], 3⟩) ∧
    StringParser.next_line (StringParser.new []) = ([], ⟨[], 0⟩) ∧
    StringParser.next_line
        (StringParser.new (('a' :: 'b' :: []) ++ '\r' :: '\n' :: 'c' :: 'd' :: [])) =
      ('a' :: 'b' :: [], ⟨('a' :: 'b' :: []) ++ '\r' :: '\n' :: 'c' :: 'd' :: [], 4⟩) :=
  ⟨by decide,
   C3_next_line_characterization.1 _ (by decide),
   C3_next_line_characterization.1 _ (by decide),
   C3_next_line_characterization.2 ('a' :: 'b' :: []) ('c' :: 'd' :: []) (by decide)⟩

/-- C9 counterexample: `set_position` stores its argument unchecked, so
it can establish a position beyond the length of the data (claimed to be
impossible). -/
theorem C9_cex :
    ¬ ((StringParser.set_position (StringParser.new ('a' :: 'b' :: [])) 5).position ≤
       (StringParser.set_position (StringParser.new ('a' :: 'b' :: [])) 5).data.length) := by
  decide

/-- C9 (amended): every cursor operation except `set_position` preserves
the invariant `position ≤ length`; `set_position` establishes exactly its
argument, hence a position within bounds iff the argument is. -/
theorem C9_position_invariant (p : StringParser)
    (hp : p.position ≤ p.data.length) (c : Char) (n : Nat) :
    (p.next).2.position ≤ (p.next).2.data.length ∧
    (p.n_chars n).2.position ≤ (p.n_chars n).2.data.length ∧
    (p.until' c).2.position ≤ (p.until' c).2.data.length ∧
    (p.next_line).2.position ≤ (p.next_line).2.data.length ∧
    (p.peek_line).2.position ≤ (p.peek_line).2.data.length ∧
    (p.set_position n).position = n := by
  refine ⟨?_, ?_, ?_, ?_, ?_, rfl⟩
  · unfold StringParser.next
    cases hrem : p.rem with
    | nil => exact hp
    | cons c r =>
      have : p.rem.length = p.data.length - p.position := by
        simp [StringParser.rem]
      rw [hrem] at this
      simp only [List.length_cons] at this
      simp only []
      omega
  · unfold StringParser.n_chars
    split
    · exact hp
    · rename_i hg
      simp only []
      omega
  · unfold StringParser.until'
    have h1 := untilN_le c p.rem
    have h2 : p.rem.length = p.data.length - p.position := by
      simp [StringParser.rem]
    simp only []
    omega
  · unfold StringParser.next_line
    have h1 := nextLineAux_le p.rem false
    have h2 : p.rem.length = p.data.length - p.position := by
      simp [StringParser.rem]
    simp only []
    omega
  · unfold StringParser.peek_line
    exact hp

/-- C9 witness: the invariant lemma applied to a concrete in-bounds
cursor, together with `set_position` landing exactly on its argument. -/
theorem C9_witness :
    (StringParser.new ('a' :: 'b' :: [])).position ≤
      (StringParser.new ('a' :: 'b' :: [])).data.length ∧
    ((StringParser.new ('a' :: 'b' :: [])).set_position 1).position = 1 :=
  ⟨by decide,
   (C9_position_invariant (StringParser.new ('a' :: 'b' :: []))
     (by decide) ':' 1).2.2.2.2.2⟩

/-- The concrete trailer used to exhibit the block-frame slip: only the
`CHK` tag is present. -/
def trailerChk : Trailer :=
  ⟨none, some ('c' :: 'h' :: 'k' :: []), none, none, none, none, none,
    none, []⟩

/-- C1: evaluating `Trailer::to_raw` at a trailer with only `CHK` set.
The encoder emits a block-3 frame (`\x7b3:...\x7d`), not the block-5 frame
the claim states, so the framer files the re-encoded trailer under label
3 and finds no block 5. -/
theorem C1_trailer_to_raw_block3 :
    Trailer.to_raw trailerChk =
      '\x7b' :: '3' :: ':' ::
        ('\x7b' :: 'C' :: 'H' :: 'K' :: ':' :: 'c' :: 'h' :: 'k' :: '\x7d' :: [] ++
          '\x7d' :: []) ∧
    (read_blocks (Trailer.to_raw trailerChk)).map (fun m => m '5') =
      some none ∧
    (read_blocks (Trailer.to_raw trailerChk)).map (fun m => m '3') =
      some (some ('\x7b' :: 'C' :: 'H' :: 'K' :: ':' :: 'c' :: 'h' :: 'k' :: '\x7d' :: [])) := by
  refine ⟨by decide, ?_, ?_⟩ <;>
  · unfold read_blocks
    rw [show Trailer.to_raw trailerChk =
      Wire.render (.sys '3'
        ('\x7b' :: 'C' :: 'H' :: 'K' :: ':' :: 'c' :: 'h' :: 'k' :: '\x7d' :: [])) ++
        ([] : List Char) from by decide]
    rw [readBlocksLoop_step _ (by decide)]
    simp [readBlocksLoop, Wire.label, Wire.content, upd]

/-- C4 counterexample: for the invalid label `9` the framer consumes the
flat body and *does* record an entry under `9` (the claim states no entry
for that label appears in the returned mapping). -/
theorem C4_cex :
    (read_blocks ('\x7b' :: '9' :: ':' ::
        (('a' :: 'b' :: 'c' :: []) ++ '\x7d' :: []))).map (fun m => m '9') =
      some (some ('a' :: 'b' :: 'c' :: [])) := by
  unfold read_blocks
  rw [readBlocksLoop_flat_step '9' ('a' :: 'b' :: 'c' :: []) [] _ (by decide)
    (by decide)]
  simp [readBlocksLoop, upd]

/-- C4 (amended): a top-level block whose label is outside
`\x7b1,2,3,4,5,S\x7d` (with the `:` present) is read as a *flat* block: the
body up to and including the next `\x7d` is consumed, its content is
inserted into the mapping under the invalid label, and no error is
raised for it. -/
theorem C4_invalid_label_read_flat (l : Char) (body rest : List Char)
    (m : Char → Option (List Char))
    (hl : l ∉ VALID_BLOCKS) (hb : '\x7d' ∉ body) :
    readBlocksLoop ('\x7b' :: l :: ':' :: (body ++ '\x7d' :: rest)) m =
      readBlocksLoop rest (upd m l body) ∧
    upd m l body l = some body := by
  constructor
  · apply readBlocksLoop_flat_step
    · simp
      exact Or.inl (Or.inl hl)
    · exact hb
  · simp [upd]

/-- C4 witness: the amended statement at label `9`, body `abc`. -/
theorem C4_witness :
    '9' ∉ VALID_BLOCKS ∧ '\x7d' ∉ ('a' :: 'b' :: 'c' :: []) ∧
    (readBlocksLoop ('\x7b' :: '9' :: ':' ::
        (('a' :: 'b' :: 'c' :: []) ++ '\x7d' :: ('X' :: []))) (fun _ => none) =
      readBlocksLoop ('X' :: [])
        (upd (fun _ => none) '9' ('a' :: 'b' :: 'c' :: [])) ∧
     upd (fun _ => none) '9' ('a' :: 'b' :: 'c' :: []) '9' =
       some ('a' :: 'b' :: 'c' :: [])) :=
  ⟨by decide, by decide,
   C4_invalid_label_read_flat '9' ('a' :: 'b' :: 'c' :: []) ('X' :: [])
     (fun _ => none) (by decide) (by decide)⟩

/-- C10: for any sequence of well-formed top-level blocks, the framer
succeeds and the mapping holds, for every label, the content of the
*last* block carrying that label; earlier duplicates are silently
shadowed by `HashMap::insert`. -/
theorem C10_last_occurrence_wins (ws : List Wire)
    (h : ∀ w ∈ ws, w.valid) (c : Char) :
    (read_blocks (renderAll ws)).map (fun m => m c) =
      some (lastContent? ws c) := by
  unfold read_blocks
  rw [readBlocksLoop_renderAll ws h]
  rw [Option.map_some']
  rw [foldl_upd_lookup]
  cases lastContent? ws c <;> simp

/-- C10 witness: two flat blocks both labelled `1`; the mapping holds the
content of the second. -/
theorem C10_witness :
    (∀ w ∈ [Wire.flat '1' ('a' :: []), Wire.flat '1' ('b' :: 'b' :: [])],
      w.valid) ∧
    (read_blocks (renderAll
        [Wire.flat '1' ('a' :: []), Wire.flat '1' ('b' :: 'b' :: [])])).map
        (fun m => m '1') =
      some (some ('b' :: 'b' :: [])) :=
  ⟨by decide, by
    rw [C10_last_occurrence_wins
      [Wire.flat '1' ('a' :: []), Wire.flat '1' ('b' :: 'b' :: [])]
      (by decide) '1']
    decide⟩

/-- C5: block-4 framing.  (a) After `\x7b4:` one line is consumed and
discarded; each subsequent CRLF-terminated line not beginning with the
sentinel is appended to the content followed by CR LF; a line beginning
with `-\x7d` stops the read and the stream resumes exactly two characters
past the saved pre-line position, leaving anything after `-\x7d` in the
stream.  A body whose only line is the sentinel yields empty content
(`lines = []`).  (b), (c) End of stream before a sentinel line is an
error. -/
theorem C5_block4_framing :
    (∀ (f : List Char) (lines : List (List Char)) (rest : List Char),
      hasCRLF f = false →
      (∀ ln ∈ lines, hasCRLF ln = false ∧
        ['-', '\x7d'].isPrefixOf ln = false) →
      read_message_text
          (f ++ '\r' :: '\n' :: (linesJoin lines ++ '-' :: '\x7d' :: rest)) =
        some (linesJoin lines, rest)) ∧
    (∀ (f : List Char) (lines : List (List Char)),
      hasCRLF f = false →
      (∀ ln ∈ lines, hasCRLF ln = false ∧
        ['-', '\x7d'].isPrefixOf ln = false) →
      read_message_text (f ++ '\r' :: '\n' :: linesJoin lines) = none) ∧
    (∀ f : List Char, hasCRLF f = false → read_message_text f = none) :=
  ⟨read_message_text_spec, read_message_text_eos, read_message_text_eos_short⟩

/-- C5 witness: an empty block-4 body (`\r\n-\x7dZ`) yields the empty
content with `Z` left in the stream; a two-line body is joined with
CR LF; a body with no sentinel errors. -/
theorem C5_witness :
    hasCRLF ([] : List Char) = false ∧
    read_message_text ([] ++ '\r' :: '\n' ::
        (linesJoin [] ++ '-' :: '\x7d' :: ('Z' :: []))) =
      some (linesJoin [], 'Z' :: []) ∧
    read_message_text ([] ++ '\r' :: '\n' ::
        (linesJoin [('2' :: '3' :: []), ('x' :: [])] ++
          '-' :: '\x7d' :: [])) =
      some (linesJoin [('2' :: '3' :: []), ('x' :: [])], []) ∧
    read_message_text (('q' :: []) ++ '\r' :: '\n' ::
        linesJoin [('2' :: '3' :: [])]) = none :=
  ⟨by decide,
   C5_block4_framing.1 [] [] ('Z' :: []) (by decide) (by decide),
   C5_block4_framing.1 [] [('2' :: '3' :: []), ('x' :: [])] [] (by decide)
     (by decide),
   C5_block4_framing.2.1 ('q' :: []) [('2' :: '3' :: [])] (by decide)
     (by decide)⟩

/-- C6: the system-block reader (labels 3, 5, S).  (a) On a body that is
balanced with at most one level of nesting followed by the outer `\x7d`,
it succeeds, capturing exactly the body: the outermost `\x7d` is excluded
(and consumed) while all inner braces are included.  (b) A `\x7b` read
while the nesting counter is already 2 is an error.  (c) End of stream
before the counter reaches 0 is an error. -/
theorem C6_system_block_reader :
    (∀ body rest : List Char, nestedBody body = true →
      sysBlockAux (body ++ '\x7d' :: rest) 1 =
        some (body, body.length + 1)) ∧
    (∀ b t u : List Char, nestedBody b = true →
      (∀ c ∈ t, c ≠ '\x7b' ∧ c ≠ '\x7d') →
      sysBlockAux (b ++ '\x7b' :: (t ++ '\x7b' :: u)) 1 = none) ∧
    (∀ body : List Char, nestedBody body = true →
      sysBlockAux body 1 = none) := by
  refine ⟨?_, ?_, ?_⟩
  · intro body rest hb
    have h0 := sysBlockAux_append body 0 ('\x7d' :: rest) hb
    norm_num at h0
    rw [h0]
    rw [show sysBlockAux ('\x7d' :: rest) 1 = some ([], 1) from by
      rw [sysBlockAux]; simp]
    simp
  · intro b t u hb ht
    have h0 := sysBlockAux_append b 0 ('\x7b' :: (t ++ '\x7b' :: u)) hb
    norm_num at h0
    have h2 : sysBlockAux ('\x7b' :: u) 2 = none := by
      rw [sysBlockAux]
      simp
    have h3 : sysBlockAux (t ++ '\x7b' :: u) 2 = none := by
      rw [sysBlockAux_plain t ('\x7b' :: u) ht, h2]
      rfl
    have h1 : sysBlockAux ('\x7b' :: (t ++ '\x7b' :: u)) 1 = none := by
      rw [sysBlockAux]
      simp [h3]
    rw [h0, h1]
    rfl
  · intro body hb
    have h0 := sysBlockAux_append body 0 [] hb
    norm_num at h0
    rw [h0]
    simp [sysBlockAux]

/-- C6 witness: body `\x7ba\x7db` (one nested sub-block) succeeds capturing
the inner braces; `\x7ba\x7b...` deep-nests to an error; an unterminated
balanced body errors at end of stream. -/
theorem C6_witness :
    nestedBody ('\x7b' :: 'a' :: '\x7d' :: 'b' :: []) = true ∧
    sysBlockAux (('\x7b' :: 'a' :: '\x7d' :: 'b' :: []) ++ '\x7d' :: ('R' :: [])) 1 =
      some ('\x7b' :: 'a' :: '\x7d' :: 'b' :: [], 5) ∧
    sysBlockAux (('x' :: []) ++ '\x7b' :: (('a' :: []) ++ '\x7b' :: ('y' :: []))) 1 =
      none ∧
    sysBlockAux ('x' :: 'y' :: []) 1 = none :=
  ⟨by decide,
   C6_system_block_reader.1 ('\x7b' :: 'a' :: '\x7d' :: 'b' :: []) ('R' :: [])
     (by decide),
   C6_system_block_reader.2.1 ('x' :: []) ('a' :: []) ('y' :: []) (by decide)
     (by decide),
   C6_system_block_reader.2.2 ('x' :: 'y' :: []) (by decide)⟩

/-- C8: decoding an Input application header.  (a) With the mandatory
`message_type` (3), `destination` (12) and `priority` (1) present, the
decode always succeeds: a failed optional read of `delivery_monitoring`
(1) or `obsolescence_period` (3) at end of stream yields the empty
string for that field instead of an error.  (b) By contrast, a missing
character in the mandatory prefix is an error. -/
theorem C8_input_optional_tails :
    (∀ mt dest prio tail : List Char,
      mt.length = 3 → dest.length = 12 → prio.length = 1 →
      ApplicationHeader.from_raw ('I' :: (mt ++ (dest ++ (prio ++ tail)))) =
        some (.Input ⟨mt, dest, prio, tail.take 1,
          if tail.length < 4 then [] else (tail.drop 1).take 3⟩)) ∧
    (∀ r : List Char, r.length < 16 →
      ApplicationHeader.from_raw ('I' :: r) = none) := by
  constructor
  · intro mt dest prio tail hmt hdest hprio
    have h1 : nCharsL (mt ++ (dest ++ (prio ++ tail))) 3 =
        some (mt, dest ++ (prio ++ tail)) := by
      rw [nCharsL_of_le _ _ (by simp [hmt])]
      rw [← hmt, List.take_left, List.drop_left]
    have h2 : nCharsL (dest ++ (prio ++ tail)) 12 =
        some (dest, prio ++ tail) := by
      rw [nCharsL_of_le _ _ (by simp [hdest])]
      rw [← hdest, List.take_left, List.drop_left]
    have h3 : nCharsL (prio ++ tail) 1 = some (prio, tail) := by
      rw [nCharsL_of_le _ _ (by simp [hprio])]
      rw [← hprio, List.take_left, List.drop_left]
    simp only [ApplicationHeader.from_raw, h1, Option.some_bind, if_pos rfl,
      h2, h3]
    cases tail with
    | nil =>
      rw [nCharsL_of_lt [] 1 (by simp)]
      rw [nCharsL_of_lt [] 3 (by simp)]
      simp
    | cons c tl =>
      rw [nCharsL_of_le (c :: tl) 1 (by simp)]
      simp only [List.take_succ_cons, List.take_zero, List.drop_succ_cons,
        List.drop_zero]
      by_cases h4 : 3 ≤ tl.length
      · rw [nCharsL_of_le tl 3 h4]
        have hcond : ¬((c :: tl).length < 4) := by
          simp only [List.length_cons]
          omega
        rw [if_neg hcond]
        simp
      · rw [nCharsL_of_lt tl 3 (by omega)]
        have hcond : (c :: tl).length < 4 := by
          simp only [List.length_cons]
          omega
        rw [if_pos hcond]
        simp
  · intro r hr
    simp only [ApplicationHeader.from_raw]
    by_cases h3 : r.length < 3
    · rw [nCharsL_of_lt r 3 h3]
      rfl
    · rw [nCharsL_of_le r 3 (by omega)]
      simp only [Option.some_bind, if_pos rfl]
      by_cases h15 : r.length < 15
      · rw [nCharsL_of_lt (r.drop 3) 12 (by simp [List.length_drop]; omega)]
        rfl
      · rw [nCharsL_of_le (r.drop 3) 12 (by simp [List.length_drop]; omega)]
        simp only [Option.some_bind]
        rw [List.drop_drop]
        rw [nCharsL_of_lt (r.drop (12 + 3)) 1
          (by simp [List.length_drop]; omega)]
        rfl

/-- C8 witness: the success case at the S1 scenario header
`I103FOOBARXXAXXXN` (both optional fields empty), and the error case at
a truncated mandatory prefix. -/
theorem C8_witness :
    ("103".data.length = 3 ∧ "FOOBARXXAXXX".data.length = 12 ∧
      "N".data.length = 1 ∧ ("10".data.length < 16)) ∧
    ApplicationHeader.from_raw
        ('I' :: ("103".data ++ ("FOOBARXXAXXX".data ++ ("N".data ++ [])))) =
      some (.Input ⟨"103".data, "FOOBARXXAXXX".data, "N".data, [], []⟩) ∧
    ApplicationHeader.from_raw ('I' :: "10".data) = none := by
  refine ⟨by decide, ?_, C8_input_optional_tails.2 "10".data (by decide)⟩
  rw [C8_input_optional_tails.1 "103".data "FOOBARXXAXXX".data "N".data []
    (by decide) (by decide) (by decide)]
  rfl

/-- C2 counterexample: `"F01AAAAAAAAAAAA+001000000"` is 25 characters,
its service code field is `01` (code 1, in the enum set), and it decodes
successfully (Rust `u32` parsing accepts the `+001` session field), but
re-encoding zero-pads the session number to `0001`, so
`encode(decode(s)) ≠ s`. -/
theorem C2_cex :
    (BasicHeader.from_raw "F01AAAAAAAAAAAA+001000000".data).map
        BasicHeader.to_raw =
      some "F01AAAAAAAAAAAA0001000000".data ∧
    "F01AAAAAAAAAAAA0001000000".data ≠ "F01AAAAAAAAAAAA+001000000".data := by
  decide

theorem take_drop_glue (s : List Char) (a w : Nat) :
    (s.drop a).take w ++ s.drop (a + w) = s.drop a := by
  conv_rhs => rw [← List.take_append_drop w (s.drop a)]
  rw [List.drop_drop]

theorem reassemble25 (s : List Char) (h : s.length = 25) :
    s.take 1 ++ ((s.drop 1).take 2 ++ ((s.drop 3).take 12 ++
      ((s.drop 15).take 4 ++ (s.drop 19).take 6))) = s := by
  have e5 : (s.drop 19).take 6 = s.drop 19 := by
    apply List.take_of_length_le
    simp only [List.length_drop]
    omega
  rw [e5]
  rw [show (19 : Nat) = 15 + 4 from rfl, take_drop_glue s 15 4]
  rw [show (15 : Nat) = 3 + 12 from rfl, take_drop_glue s 3 12]
  rw [show (3 : Nat) = 1 + 2 from rfl, take_drop_glue s 1 2]
  exact List.take_append_drop 1 s

/-- C2 (amended): for every 25-character block-1 content whose three
numeric fields (service code, session number, sequence number) consist
of digits only and whose service code is in the closed enum set,
re-encoding the decoded header reproduces the string exactly:
`encode(decode(s)) = s`. -/
theorem C2_basic_header_roundtrip (s : List Char)
    (h25 : s.length = 25)
    (hsv : ∀ c ∈ (s.drop 1).take 2, isDig c = true)
    (hse : ∀ c ∈ (s.drop 15).take 4, isDig c = true)
    (hsq : ∀ c ∈ (s.drop 19).take 6, isDig c = true)
    (henum : (ServiceIdentifier.from_u32
      (digitsToNat ((s.drop 1).take 2))).isSome = true) :
    (BasicHeader.from_raw s).map BasicHeader.to_raw = some s := by
  have lsv : ((s.drop 1).take 2).length = 2 := by
    simp only [List.length_take, List.length_drop]
    omega
  have lse : ((s.drop 15).take 4).length = 4 := by
    simp only [List.length_take, List.length_drop]
    omega
  have lsq : ((s.drop 19).take 6).length = 6 := by
    simp only [List.length_take, List.length_drop]
    omega
  have h1 : nCharsL s 1 = some (s.take 1, s.drop 1) :=
    nCharsL_of_le s 1 (by omega)
  have h2 : nCharsL (s.drop 1) 2 = some ((s.drop 1).take 2, s.drop 3) := by
    rw [nCharsL_of_le (s.drop 1) 2 (by simp only [List.length_drop]; omega)]
    rw [List.drop_drop]
  have h3 : nCharsL (s.drop 3) 12 = some ((s.drop 3).take 12, s.drop 15) := by
    rw [nCharsL_of_le (s.drop 3) 12 (by simp only [List.length_drop]; omega)]
    rw [List.drop_drop]
  have h4 : nCharsL (s.drop 15) 4 = some ((s.drop 15).take 4, s.drop 19) := by
    rw [nCharsL_of_le (s.drop 15) 4 (by simp only [List.length_drop]; omega)]
    rw [List.drop_drop]
  have h5 : nCharsL (s.drop 19) 6 = some ((s.drop 19).take 6, s.drop 25) := by
    rw [nCharsL_of_le (s.drop 19) 6 (by simp only [List.length_drop]; omega)]
    rw [List.drop_drop]
  have hpse : parseU32 ((s.drop 15).take 4) =
      some (digitsToNat ((s.drop 15).take 4)) := by
    apply parseU32_digits _ _ hse (by omega)
    intro hnil
    rw [hnil] at lse
    simp at lse
  have hpsq : parseU32 ((s.drop 19).take 6) =
      some (digitsToNat ((s.drop 19).take 6)) := by
    apply parseU32_digits _ _ hsq (by omega)
    intro hnil
    rw [hnil] at lsq
    simp at lsq
  have hpsv : parseU32 ((s.drop 1).take 2) =
      some (digitsToNat ((s.drop 1).take 2)) := by
    apply parseU32_digits _ _ hsv (by omega)
    intro hnil
    rw [hnil] at lsv
    simp at lsv
  obtain ⟨e, he⟩ := Option.isSome_iff_exists.mp henum
  simp only [BasicHeader.from_raw, h1, h2, h3, h4, h5, hpse, hpsq, hpsv, he,
    Option.some_bind, Option.map_some']
  unfold BasicHeader.to_raw
  simp only []
  rw [from_u32_to_u32 _ e he]
  have hr2 : renderNum 2 (digitsToNat ((s.drop 1).take 2)) =
      (s.drop 1).take 2 := by
    have h := renderNum_digits ((s.drop 1).take 2) hsv
    rwa [lsv] at h
  have hr4 : renderNum 4 (digitsToNat ((s.drop 15).take 4)) =
      (s.drop 15).take 4 := by
    have h := renderNum_digits ((s.drop 15).take 4) hse
    rwa [lse] at h
  have hr6 : renderNum 6 (digitsToNat ((s.drop 19).take 6)) =
      (s.drop 19).take 6 := by
    have h := renderNum_digits ((s.drop 19).take 6) hsq
    rwa [lsq] at h
  rw [hr2, hr4, hr6]
  rw [List.append_assoc, List.append_assoc, List.append_assoc]
  rw [reassemble25 s h25]

/-- C7 counterexample: the block-1 content
`"F01AAAAAAAAAAAA+001000000"` has a non-digit (`+`) in the session
number field, yet decoding succeeds, refuting that an error occurs
exactly when a numeric field contains a non-digit. -/
theorem C7_cex :
    (BasicHeader.from_raw "F01AAAAAAAAAAAA+001000000".data).isSome = true ∧
    '+' ∈ ("F01AAAAAAAAAAAA+001000000".data.drop 15).take 4 ∧
    isDig '+' = false := by
  decide

/-- C7 (amended): decoding block-1 content fails exactly when the
25-character prefix cannot be read, or a numeric field fails Rust `u32`
parsing (an optional leading `+` followed by digits), or the service
code value is not one of the fourteen enum codes. -/
theorem C7_basic_header_error_iff (s : List Char) :
    BasicHeader.from_raw s = none ↔
      s.length < 25 ∨
      (parseU32 ((s.drop 1).take 2)).bind ServiceIdentifier.from_u32 =
        none ∨
      parseU32 ((s.drop 15).take 4) = none ∨
      parseU32 ((s.drop 19).take 6) = none := by
  by_cases h25 : s.length < 25
  · constructor
    · intro _
      exact Or.inl h25
    · intro _
      unfold BasicHeader.from_raw
      by_cases c1 : s.length < 1
      · rw [nCharsL_of_lt s 1 c1]
        rfl
      · rw [nCharsL_of_le s 1 (by omega)]
        simp only [Option.some_bind]
        by_cases c2 : s.length < 3
        · rw [nCharsL_of_lt (s.drop 1) 2
            (by simp only [List.length_drop]; omega)]
          rfl
        · rw [nCharsL_of_le (s.drop 1) 2
            (by simp only [List.length_drop]; omega)]
          simp only [Option.some_bind]
          by_cases c3 : s.length < 15
          · rw [List.drop_drop, nCharsL_of_lt (s.drop 3) 12
              (by simp only [List.length_drop]; omega)]
            rfl
          · rw [List.drop_drop, nCharsL_of_le (s.drop 3) 12
              (by simp only [List.length_drop]; omega)]
            simp only [Option.some_bind]
            by_cases c4 : s.length < 19
            · rw [List.drop_drop, nCharsL_of_lt (s.drop 15) 4
                (by simp only [List.length_drop]; omega)]
              rfl
            · rw [List.drop_drop, nCharsL_of_le (s.drop 15) 4
                (by simp only [List.length_drop]; omega)]
              simp only [Option.some_bind]
              cases hp : parseU32 ((s.drop 15).take 4) with
              | none => rfl
              | some a =>
                simp only [Option.some_bind]
                rw [List.drop_drop, nCharsL_of_lt (s.drop 19) 6
                  (by simp only [List.length_drop]; omega)]
                rfl
  · have h1 : nCharsL s 1 = some (s.take 1, s.drop 1) :=
      nCharsL_of_le s 1 (by omega)
    have h2 : nCharsL (s.drop 1) 2 = some ((s.drop 1).take 2, s.drop 3) := by
      rw [nCharsL_of_le (s.drop 1) 2 (by simp only [List.length_drop]; omega)]
      rw [List.drop_drop]
    have h3 : nCharsL (s.drop 3) 12 =
        some ((s.drop 3).take 12, s.drop 15) := by
      rw [nCharsL_of_le (s.drop 3) 12
        (by simp only [List.length_drop]; omega)]
      rw [List.drop_drop]
    have h4 : nCharsL (s.drop 15) 4 =
        some ((s.drop 15).take 4, s.drop 19) := by
      rw [nCharsL_of_le (s.drop 15) 4
        (by simp only [List.length_drop]; omega)]
      rw [List.drop_drop]
    have h5 : nCharsL (s.drop 19) 6 =
        some ((s.drop 19).take 6, s.drop 25) := by
      rw [nCharsL_of_le (s.drop 19) 6
        (by simp only [List.length_drop]; omega)]
      rw [List.drop_drop]
    simp only [BasicHeader.from_raw, h1, h2, h3, h4, h5, Option.some_bind]
    constructor
    · intro h
      cases hse : parseU32 ((s.drop 15).take 4) with
      | none => exact Or.inr (Or.inr (Or.inl rfl))
      | some a =>
        rw [hse] at h
        simp only [Option.some_bind] at h
        cases hsq : parseU32 ((s.drop 19).take 6) with
        | none => exact Or.inr (Or.inr (Or.inr rfl))
        | some b =>
          rw [hsq] at h
          simp only [Option.some_bind] at h
          cases hsv : parseU32 ((s.drop 1).take 2) with
          | none => exact Or.inr (Or.inl rfl)
          | some v =>
            rw [hsv] at h
            simp only [Option.some_bind] at h
            refine Or.inr (Or.inl ?_)
            simp only [Option.some_bind]
            exact Option.map_eq_none'.mp h
    · intro h
      cases hse : parseU32 ((s.drop 15).take 4) with
      | none => rfl
      | some a =>
        simp only [Option.some_bind]
        cases hsq : parseU32 ((s.drop 19).take 6) with
        | none => rfl
        | some b =>
          simp only [Option.some_bind]
          cases hsv : parseU32 ((s.drop 1).take 2) with
          | none => rfl
          | some v =>
            simp only [Option.some_bind]
            rcases h with h | h | h | h
            · omega
            · rw [hsv] at h
              simp only [Option.some_bind] at h
              rw [h]
              rfl
            · rw [hse] at h
              exact absurd h (by simp)
            · rw [hsq] at h
              exact absurd h (by simp)

/-- C2 witness: the round trip at the S1 scenario block-1 content. -/
theorem C2_witness :
    ("F01AAAAAAAAAAAA0000000000".data.length = 25 ∧
      (ServiceIdentifier.from_u32 (digitsToNat
        (("F01AAAAAAAAAAAA0000000000".data.drop 1).take 2))).isSome = true) ∧
    (BasicHeader.from_raw "F01AAAAAAAAAAAA0000000000".data).map
        BasicHeader.to_raw =
      some "F01AAAAAAAAAAAA0000000000".data :=
  ⟨⟨by decide, by decide⟩,
   C2_basic_header_roundtrip "F01AAAAAAAAAAAA0000000000".data (by decide)
     (by decide) (by decide) (by decide) (by decide)⟩
